import Mathlib

/-!
Verification of the CT-NeRF ray geometry, sampling, transmittance and
volume-assembly subsystem, shallowly embedded from src/ctnerf/rays.py and
src/ctnerf/image_creation/ct_creation.py. Tensors of shape (B, N) are
modelled one ray at a time as lists; the batch dimension is fully
independent row-wise in every modelled operation.
-/

namespace CTNeRF

/-- Row-wise behaviour of torch.diff along the sample axis with one value
appended: for samples t0, t1, ..., tn and appended value far it returns
the list t1 - t0, ..., tn - t(n-1), far - tn. -/
def diffAppend : List ℚ → ℚ → List ℚ
  | [], _ => []
  | [t], far => [far - t]
  | t :: t2 :: rest, far => (t2 - t) :: diffAppend (t2 :: rest) far

/-- Embedding of get_sampling_distances (src/ctnerf/rays.py) for one ray:
torch.diff over the t samples with the upper ray bound appended, or with
the constant 2 appended when no ray bounds are supplied. -/
def get_sampling_distances (t_samples : List ℚ) (ray_bounds : Option (ℚ × ℚ)) : List ℚ :=
  match ray_bounds with
  | some b => diffAppend t_samples b.2
  | none => diffAppend t_samples 2

/-- Ascending per-row sort, modelling torch.sort along the sample axis. -/
def sortAsc (l : List ℚ) : List ℚ := List.insertionSort (· ≤ ·) l

/-- Embedding of the merge step of get_fine_samples (src/ctnerf/rays.py) for
one ray: the fine t samples are concatenated after the coarse t samples and
the combined list is sorted ascending. -/
def fine_merge (coarse fine : List ℚ) : List ℚ := sortAsc (coarse ++ fine)

/-- Embedding of the distance computation of get_fine_samples: sampling
distances are recomputed over the merged, re-sorted t samples with the
supplied ray bounds. -/
def fine_sampling_distances (coarse fine : List ℚ) (ray_bounds : ℚ × ℚ) : List ℚ :=
  get_sampling_distances (fine_merge coarse fine) (some ray_bounds)

/-- Embedding of the Hounsfield conversion of run_inference
(src/ctnerf/image_creation/ct_creation.py, lines 96 to 100): the scaled model
output is converted via 1000 (x - mu_water) / (mu_water - mu_air) and then
clamped from below at -1024 by clamp_min. The numeric values of MU_WATER and
MU_AIR live in ctnerf/constants.py, outside the embedded sources, so they are
kept as parameters here; every result below only needs mu_air < mu_water. -/
def hounsfield (mu_water mu_air x : ℚ) : ℚ :=
  max (1000 * (x - mu_water) / (mu_water - mu_air)) (-1024)

/-- Truncation toward zero, modelling the numpy astype(int) cast. -/
def astype_int (q : ℚ) : ℤ := if 0 ≤ q then ⌊q⌋ else -⌊-q⌋

/-- Embedding of the sizing branch of generate_ct
(src/ctnerf/image_creation/ct_creation.py, lines 26 to 37), per axis.
If a target voxel spacing is supplied the code computes
image_size = astype_int(original_size / original_spacing * voxel_spacing);
otherwise, if a target image size is supplied, the code computes
voxel_spacing = original_spacing * original_size / image_size. When neither
is supplied, no branch assigns image_size or voxel_spacing and the run dies
with an unbound-variable error, modelled as none. When both are supplied the
first branch wins. -/
def determine_size (voxel_spacing : Option ℚ) (image_size : Option ℕ)
    (original_size : ℕ) (original_spacing : ℚ) : Option (ℤ × ℚ) :=
  match voxel_spacing with
  | some vs => some (astype_int ((original_size : ℚ) / original_spacing * vs), vs)
  | none =>
    match image_size with
    | some n => some ((n : ℤ), original_spacing * original_size / n)
    | none => none

/-- The half coefficient p_half = a v_x + b v_y of the quadratic solved by
_get_ray_bounds (src/ctnerf/rays.py), with (a, b) the first two components
of the start position and (v_x, v_y) those of the heading vector. -/
noncomputable def p_half (start_pos heading_vector : ℝ × ℝ × ℝ) : ℝ :=
  start_pos.1 * heading_vector.1 + start_pos.2.1 * heading_vector.2.1

/-- The constant term q = a^2 + b^2 - 1 of the quadratic solved by
_get_ray_bounds. -/
noncomputable def q_term (start_pos : ℝ × ℝ × ℝ) : ℝ :=
  start_pos.1 ^ 2 + start_pos.2.1 ^ 2 - 1

/-- The discriminant p_half^2 - q of the cylinder intersection quadratic. -/
noncomputable def discriminant (start_pos heading_vector : ℝ × ℝ × ℝ) : ℝ :=
  p_half start_pos heading_vector ^ 2 - q_term start_pos

/-- Embedding of _get_ray_bounds (src/ctnerf/rays.py) for one ray: the two
roots -p_half -+ sqrt(p_half^2 - q). The code takes torch.sqrt, which is NaN
on a negative discriminant, and replaces the NaN with 0 via nan_to_num;
Real.sqrt is 0 on negative inputs, so it models that composite exactly. -/
noncomputable def get_ray_bounds (start_pos heading_vector : ℝ × ℝ × ℝ) : ℝ × ℝ :=
  (-p_half start_pos heading_vector - Real.sqrt (discriminant start_pos heading_vector),
   -p_half start_pos heading_vector + Real.sqrt (discriminant start_pos heading_vector))

/-- Embedding of the pixel normalisation of get_rays (src/ctnerf/rays.py):
2 pixel / (shape - 1) - 1 per axis. -/
noncomputable def normalized_pos (pixel_pos img_shape : ℝ × ℝ) : ℝ × ℝ :=
  (2 * pixel_pos.1 / (img_shape.1 - 1) - 1, 2 * pixel_pos.2 / (img_shape.2 - 1) - 1)

/-- Embedding of the start position computed by get_rays: the z rotation
matrix built by _create_z_rotation_matrix applied to the homogeneous
position (1, n1, n2), where n is the normalised pixel position. -/
noncomputable def ray_start (pixel_pos img_shape : ℝ × ℝ) (angle : ℝ) : ℝ × ℝ × ℝ :=
  (Real.cos angle * 1 - Real.sin angle * (normalized_pos pixel_pos img_shape).1,
   Real.sin angle * 1 + Real.cos angle * (normalized_pos pixel_pos img_shape).1,
   (normalized_pos pixel_pos img_shape).2)

/-- Embedding of the heading vector returned by _create_z_rotation_matrix:
the negated direction (cos angle, sin angle, 0). -/
noncomputable def heading_of (angle : ℝ) : ℝ × ℝ × ℝ :=
  (-Real.cos angle, -Real.sin angle, 0)

/-- Embedding of beer_lambert_law (src/ctnerf/rays.py) for one ray: the
distances are scaled to centimetres by slice_size_cm / 2, the transmittance
is exp of minus the sum of coefficient times distance over the sample axis,
and when both s and k are supplied the inverse scaling log(e + k) / s is
applied to the raw transmittance e. -/
noncomputable def beer_lambert_law (attenuation_coeffs distances : List ℝ)
    (s k : Option ℝ) (slice_size_cm : ℝ) : ℝ :=
  let ds := distances.map (fun d => d * slice_size_cm / 2)
  let e := Real.exp (-(List.zipWith (· * ·) attenuation_coeffs ds).sum)
  match s, k with
  | some sv, some kv => Real.log (e + kv) / sv
  | _, _ => e

/-- Embedding of the chunk partition used by the query loop of run_inference
(src/ctnerf/image_creation/ct_creation.py, lines 87 to 94): torch.split cuts
the flattened coordinate list into consecutive chunks of chunk_size
elements, the last chunk holding the remainder. -/
def splitChunks {α : Type} (chunk_size : ℕ) : List α → List (List α)
  | [] => []
  | x :: xs =>
      (x :: xs.take (chunk_size - 1)) :: splitChunks chunk_size (xs.drop (chunk_size - 1))
  termination_by l => l.length
  decreasing_by simp [List.length_drop]; omega

theorem diffAppend_length : ∀ (ts : List ℚ) (far : ℚ),
    (diffAppend ts far).length = ts.length
  | [], _ => rfl
  | [_], _ => rfl
  | _ :: t2 :: rest, far => by
      simp only [diffAppend, List.length_cons]
      rw [diffAppend_length (t2 :: rest) far, List.length_cons]

theorem diffAppend_getElem! : ∀ (ts : List ℚ) (far : ℚ) (i : ℕ), i + 1 < ts.length →
    (diffAppend ts far)[i]! = ts[i + 1]! - ts[i]!
  | [], _, i, h => by simp at h
  | [_], _, i, h => by simp at h
  | _ :: _ :: _, _, 0, _ => by simp [diffAppend]
  | _ :: t2 :: rest, far, i + 1, h => by
      have ih := diffAppend_getElem! (t2 :: rest) far i (by simpa using h)
      simp [diffAppend, ih]

theorem diffAppend_last : ∀ (ts : List ℚ) (far : ℚ) (n : ℕ), ts.length = n + 1 →
    (diffAppend ts far)[n]! = far - ts[n]!
  | [], _, n, h => by simp at h
  | [t], far, n, h => by
      have : n = 0 := by simpa using h.symm
      subst this
      simp [diffAppend]
  | t0 :: t1 :: rest, far, n, h => by
      match n, h with
      | n + 1, h =>
        have ih := diffAppend_last (t1 :: rest) far n (by simpa using h)
        simp [diffAppend, ih]

theorem diffAppend_nonneg : ∀ (ts : List ℚ) (far : ℚ), ts.Sorted (· ≤ ·) →
    (∀ t ∈ ts, t ≤ far) → ∀ d ∈ diffAppend ts far, 0 ≤ d
  | [], _, _, _ => by simp [diffAppend]
  | [t], far, _, hb => by
      intro d hd
      have hd2 : d ∈ [far - t] := hd
      have ht : t ≤ far := hb t (by simp)
      rcases List.mem_singleton.mp hd2 with rfl
      linarith
  | t0 :: t1 :: rest, far, hs, hb => by
      intro d hd
      have hd2 : d ∈ (t1 - t0) :: diffAppend (t1 :: rest) far := hd
      rcases List.mem_cons.mp hd2 with rfl | hd3
      · have h01 : t0 ≤ t1 := (List.sorted_cons.mp hs).1 t1 (by simp)
        linarith
      · exact diffAppend_nonneg (t1 :: rest) far (List.sorted_cons.mp hs).2
          (fun t ht => hb t (List.mem_cons_of_mem _ ht)) d hd3

theorem diffAppend_dropLast_nonneg : ∀ (ts : List ℚ) (far : ℚ), ts.Sorted (· ≤ ·) →
    ∀ d ∈ (diffAppend ts far).dropLast, 0 ≤ d
  | [], _, _ => by simp [diffAppend]
  | [t], _, _ => by
      intro d hd
      have hd2 : d ∈ ([] : List ℚ) := hd
      simp at hd2
  | [t0, t1], _, hs => by
      intro d hd
      have hd2 : d ∈ [t1 - t0] := hd
      rcases List.mem_singleton.mp hd2 with rfl
      have h01 : t0 ≤ t1 := (List.sorted_cons.mp hs).1 t1 (by simp)
      linarith
  | t0 :: t1 :: t2 :: rest, far, hs => by
      intro d hd
      have hd2 : d ∈ (t1 - t0) :: ((t2 - t1) :: diffAppend (t2 :: rest) far).dropLast := hd
      rcases List.mem_cons.mp hd2 with rfl | hd3
      · have h01 : t0 ≤ t1 := (List.sorted_cons.mp hs).1 t1 (by simp)
        linarith
      · exact diffAppend_dropLast_nonneg (t1 :: t2 :: rest) far
          (List.sorted_cons.mp hs).2 d hd3

/-- C1: distances have the same length as the t samples; the distance at
index i is the t value at index i + 1 minus the t value at index i; the last
distance is the supplied far bound minus the last t value, and when no ray
bounds are supplied the fixed default far bound 2 is used instead. -/
theorem C1_distance_rule (ts : List ℚ) (lo hi : ℚ) (i n : ℕ) :
    (get_sampling_distances ts (some (lo, hi))).length = ts.length ∧
    (get_sampling_distances ts none).length = ts.length ∧
    (i + 1 < ts.length →
      (get_sampling_distances ts (some (lo, hi)))[i]! = ts[i + 1]! - ts[i]! ∧
      (get_sampling_distances ts none)[i]! = ts[i + 1]! - ts[i]!) ∧
    (ts.length = n + 1 →
      (get_sampling_distances ts (some (lo, hi)))[n]! = hi - ts[n]! ∧
      (get_sampling_distances ts none)[n]! = 2 - ts[n]!) := by
  refine ⟨diffAppend_length ts hi, diffAppend_length ts 2, fun h => ⟨?_, ?_⟩, fun h => ⟨?_, ?_⟩⟩
  · exact diffAppend_getElem! ts hi i h
  · exact diffAppend_getElem! ts 2 i h
  · exact diffAppend_last ts hi n h
  · exact diffAppend_last ts 2 n h

/-- Witness for C1 at the concrete t samples 0, 1/2 with ray bounds (0, 1). -/
theorem C1_distance_rule_witness :
    (get_sampling_distances [0, 1/2] (some (0, 1)))[0]! = (1/2 : ℚ) - 0 ∧
    (get_sampling_distances [0, 1/2] (some (0, 1)))[1]! = (1 : ℚ) - 1/2 ∧
    (get_sampling_distances [0, 1/2] none)[1]! = (2 : ℚ) - 1/2 := by
  have h := C1_distance_rule [0, 1/2] 0 1 0 1
  exact ⟨(h.2.2.1 (by decide)).1, (h.2.2.2 (by decide)).1, (h.2.2.2 (by decide)).2⟩

/-- C4: merging coarse t values 1/10, 1/2, 9/10 with fine t values 3/10, 7/10
and re-sorting yields 1/10, 3/10, 1/2, 7/10, 9/10; the distances recomputed
over the merged, sorted sequence differ from distances computed over the
unsorted concatenation; in general the merged sequence is sorted ascending
and is a permutation of the concatenation of coarse and fine t values. -/
theorem C4_fine_merge_sort :
    fine_merge [1/10, 1/2, 9/10] [3/10, 7/10] = [1/10, 3/10, 1/2, 7/10, 9/10] ∧
    fine_sampling_distances [1/10, 1/2, 9/10] [3/10, 7/10] (0, 1) =
      [1/5, 1/5, 1/5, 1/5, 1/10] ∧
    fine_sampling_distances [1/10, 1/2, 9/10] [3/10, 7/10] (0, 1) ≠
      get_sampling_distances ([1/10, 1/2, 9/10] ++ [3/10, 7/10]) (some (0, 1)) ∧
    (∀ coarse fine : List ℚ, (fine_merge coarse fine).Sorted (· ≤ ·)) ∧
    (∀ coarse fine : List ℚ, (fine_merge coarse fine).Perm (coarse ++ fine)) := by
  have hm : fine_merge [1/10, 1/2, 9/10] [3/10, 7/10] = [1/10, 3/10, 1/2, 7/10, 9/10] := by
    norm_num [fine_merge, sortAsc, List.insertionSort, List.orderedInsert]
  have hd : fine_sampling_distances [1/10, 1/2, 9/10] [3/10, 7/10] (0, 1) =
      [1/5, 1/5, 1/5, 1/5, 1/10] := by
    rw [fine_sampling_distances, hm]
    norm_num [get_sampling_distances, diffAppend]
  have hu : get_sampling_distances ([1/10, 1/2, 9/10] ++ [3/10, 7/10]) (some (0, 1)) =
      [2/5, 2/5, -(3/5), 2/5, 3/10] := by
    norm_num [get_sampling_distances, diffAppend]
  refine ⟨hm, hd, ?_, fun c f => List.sorted_insertionSort _ _,
    fun c f => List.perm_insertionSort _ _⟩
  rw [hd, hu]
  norm_num

/-- C7 counterexample: a fine sampling output that satisfies the stated
strategy contract but exceeds the far ray bound makes the final recomputed
distance negative. With one coarse sample at 1/2, one fine sample at 3/2
and ray bounds (0, 1), the distances are 1 and -1/2. -/
theorem C7_counterexample :
    fine_sampling_distances [1/2] [3/2] (0, 1) = [1, -(1/2)] ∧
    ¬ (∀ d ∈ fine_sampling_distances [1/2] [3/2] (0, 1), 0 ≤ d) := by
  have h : fine_sampling_distances [1/2] [3/2] (0, 1) = [1, -(1/2)] := by
    norm_num [fine_sampling_distances, fine_merge, sortAsc, get_sampling_distances,
      List.insertionSort, List.orderedInsert, diffAppend]
  refine ⟨h, fun hall => ?_⟩
  have hneg := hall (-(1/2)) (by rw [h]; simp)
  linarith

/-- C7 amended: coarse-pass distances are all nonnegative whenever the
sampling strategy returns ascending t values bounded by the far bound (the
supplied upper ray bound, or the default 2 when no bounds are supplied);
fine-pass distances at all but the last index are nonnegative after the
re-sort; the last fine-pass distance is also nonnegative provided every
merged t value is at most the far bound. -/
theorem C7_amended_nonneg (ts coarse fine : List ℚ) (lo hi : ℚ) :
    (ts.Sorted (· ≤ ·) → (∀ t ∈ ts, t ≤ hi) →
      ∀ d ∈ get_sampling_distances ts (some (lo, hi)), 0 ≤ d) ∧
    (ts.Sorted (· ≤ ·) → (∀ t ∈ ts, t ≤ 2) →
      ∀ d ∈ get_sampling_distances ts none, 0 ≤ d) ∧
    (∀ d ∈ (fine_sampling_distances coarse fine (lo, hi)).dropLast, 0 ≤ d) ∧
    ((∀ t ∈ coarse, t ≤ hi) → (∀ t ∈ fine, t ≤ hi) →
      ∀ d ∈ fine_sampling_distances coarse fine (lo, hi), 0 ≤ d) := by
  refine ⟨fun hs hb => diffAppend_nonneg ts hi hs hb,
          fun hs hb => diffAppend_nonneg ts 2 hs hb,
          diffAppend_dropLast_nonneg _ _ (List.sorted_insertionSort _ _), ?_⟩
  intro hc hf
  apply diffAppend_nonneg _ _ (List.sorted_insertionSort _ _)
  intro t ht
  have ht2 : t ∈ coarse ++ fine := (List.perm_insertionSort _ _).mem_iff.mp ht
  rcases List.mem_append.mp ht2 with h | h
  · exact hc t h
  · exact hf t h

/-- Witness for C7 amended at coarse samples 0, 1/2 and a fine sample 1/2
with ray bounds (0, 1). -/
theorem C7_amended_nonneg_witness :
    (∀ d ∈ get_sampling_distances [0, 1/2] (some (0, 1)), 0 ≤ d) ∧
    (∀ d ∈ fine_sampling_distances [0] [1/2] (0, 1), 0 ≤ d) := by
  have h := C7_amended_nonneg [0, 1/2] [0] [1/2] 0 1
  refine ⟨h.1 ?_ ?_, h.2.2.2 ?_ ?_⟩
  · norm_num [List.sorted_cons]
  · norm_num
  · norm_num
  · norm_num

/-- C2 counterexample: with mu_water = 1 and mu_air = 0, the input mu_air
maps to -1000, not to the clamp value -1024: the clamp is not reached at
mu_air. -/
theorem C2_counterexample :
    hounsfield 1 0 0 = -1000 ∧ hounsfield 1 0 0 ≠ -1024 := by
  have h : hounsfield 1 0 0 = -1000 := by
    norm_num [hounsfield]
  exact ⟨h, by rw [h]; norm_num⟩

/-- C2 amended: for any constants with mu_air < mu_water, an input equal to
mu_water maps to 0; every output is at least -1024, never below; an input
equal to mu_air maps to exactly -1000; the clamp value -1024 is reached
exactly by inputs at or below mu_water - (128/125)(mu_water - mu_air), a
threshold strictly below mu_air. -/
theorem C2_amended_hounsfield (mu_water mu_air x : ℚ) (h : mu_air < mu_water) :
    hounsfield mu_water mu_air mu_water = 0 ∧
    -1024 ≤ hounsfield mu_water mu_air x ∧
    hounsfield mu_water mu_air mu_air = -1000 ∧
    mu_water - (128/125) * (mu_water - mu_air) < mu_air ∧
    (hounsfield mu_water mu_air x = -1024 ↔
      x ≤ mu_water - (128/125) * (mu_water - mu_air)) := by
  have hd : (0 : ℚ) < mu_water - mu_air := sub_pos.mpr h
  refine ⟨?_, le_max_right _ _, ?_, by linarith, ?_, ?_⟩
  · rw [hounsfield, sub_self, mul_zero, zero_div]
    norm_num
  · rw [hounsfield]
    have hv : 1000 * (mu_air - mu_water) / (mu_water - mu_air) = -1000 := by
      field_simp
      ring
    rw [hv]
    norm_num
  · intro heq
    by_contra hx
    push_neg at hx
    have hgt : -1024 < 1000 * (x - mu_water) / (mu_water - mu_air) := by
      rw [lt_div_iff₀ hd]
      nlinarith [hx, hd]
    have hlt : -1024 < hounsfield mu_water mu_air x :=
      lt_of_lt_of_le hgt (le_max_left _ _)
    rw [heq] at hlt
    exact lt_irrefl _ hlt
  · intro hx
    rw [hounsfield, max_eq_right]
    rw [div_le_iff₀ hd]
    nlinarith [hx, hd]

/-- Witness for C2 amended at mu_water = 1, mu_air = 0, input -2. -/
theorem C2_amended_hounsfield_witness :
    hounsfield 1 0 1 = 0 ∧
    -1024 ≤ hounsfield 1 0 (-2) ∧
    (1 : ℚ) - (128/125) * (1 - 0) < 0 ∧
    hounsfield 1 0 (-2) = -1024 := by
  have h := C2_amended_hounsfield 1 0 (-2) (by norm_num)
  exact ⟨h.1, h.2.1, h.2.2.2.1, h.2.2.2.2.mpr (by norm_num)⟩

/-- C3: at original detector size 256, spacing 1 and requested voxel spacing
2, the code computes output lattice size 512, not 128, and the resulting
physical extent 512 times 2 differs from the original extent 256 times 1:
the voxel-spacing branch multiplies instead of dividing by the new spacing
and does not preserve physical extent, contradicting the inverse relation
used by its own image-size branch. -/
theorem C3_sizing_code_bug :
    determine_size (some 2) none 256 1 = some (512, 2) ∧
    (512 : ℤ) ≠ 128 ∧
    (512 : ℚ) * 2 ≠ 256 * 1 ∧
    determine_size none (some 128) 256 2 = some (128, 4) := by
  refine ⟨?_, by norm_num, by norm_num, ?_⟩
  · norm_num [determine_size, astype_int]
  · norm_num [determine_size]

/-- C8 counterexample: when both a target voxel spacing and a target image
size are supplied, the sizing step succeeds instead of failing: the
voxel-spacing branch silently takes precedence and no configuration
conflict is reported. -/
theorem C8_counterexample :
    determine_size (some 2) (some 128) 256 1 ≠ none ∧
    determine_size (some 2) (some 128) 256 1 =
      determine_size (some 2) none 256 1 := by
  exact ⟨by simp [determine_size], rfl⟩

/-- C8 amended: when neither a target voxel spacing nor a target image size
is supplied, the sizing step produces no result (the run dies on an unbound
variable before any computation); when both are supplied, no error is
raised and the voxel-spacing branch silently takes precedence. -/
theorem C8_amended_config (isz original_size : ℕ) (vs original_spacing : ℚ) :
    determine_size none none original_size original_spacing = none ∧
    determine_size (some vs) (some isz) original_size original_spacing =
      determine_size (some vs) none original_size original_spacing :=
  ⟨rfl, rfl⟩

/-- C5: for every start position and heading vector the returned bounds
satisfy t1 at most t2, since the square root factor is nonnegative; and when
the discriminant is negative the square root is treated as 0, so both
bounds collapse to -p_half and no failure value propagates. -/
theorem C5_ray_bounds_safe (s h : ℝ × ℝ × ℝ) :
    (get_ray_bounds s h).1 ≤ (get_ray_bounds s h).2 ∧
    (discriminant s h < 0 →
      get_ray_bounds s h = (-p_half s h, -p_half s h)) := by
  constructor
  · have hr := Real.sqrt_nonneg (discriminant s h)
    simp only [get_ray_bounds]
    linarith
  · intro hlt
    have hz : Real.sqrt (discriminant s h) = 0 :=
      Real.sqrt_eq_zero_of_nonpos hlt.le
    simp only [get_ray_bounds, hz, sub_zero, add_zero]

/-- Witness for C5 at the start position (2, 0, 0) with heading (0, 1, 0),
whose discriminant is -3. -/
theorem C5_ray_bounds_safe_witness :
    discriminant (2, 0, 0) (0, 1, 0) < 0 ∧
    get_ray_bounds (2, 0, 0) (0, 1, 0) = (0, 0) := by
  have hlt : discriminant ((2 : ℝ), 0, 0) ((0 : ℝ), 1, 0) < 0 := by
    norm_num [discriminant, p_half, q_term]
  have h := (C5_ray_bounds_safe (2, 0, 0) (0, 1, 0)).2 hlt
  refine ⟨hlt, ?_⟩
  rw [h]
  norm_num [p_half]

/-- C6 counterexample: for the pixel (0, 0) of a 3 by 3 image at angle 0,
the start position is (1, -1, -1), whose first two coordinates have squared
norm 2, so the start does not lie on the unit cylinder. -/
theorem C6_counterexample :
    ray_start (0, 0) (3, 3) 0 = (1, -1, -1) ∧
    (ray_start (0, 0) (3, 3) 0).1 ^ 2 + (ray_start (0, 0) (3, 3) 0).2.1 ^ 2 ≠ 1 := by
  have h : ray_start ((0 : ℝ), 0) (3, 3) 0 = (1, -1, -1) := by
    norm_num [ray_start, normalized_pos]
  refine ⟨h, ?_⟩
  rw [h]
  norm_num

/-- C6 amended: the squared radial distance of the start position equals
1 + n1^2 where n1 is the first normalised pixel coordinate, so the start
lies on the unit cylinder exactly when the pixel sits on the central
detector column (n1 = 0), and is never inside the cylinder. -/
theorem C6_amended_start_radius (pixel_pos img_shape : ℝ × ℝ) (angle : ℝ) :
    (ray_start pixel_pos img_shape angle).1 ^ 2 +
      (ray_start pixel_pos img_shape angle).2.1 ^ 2 =
      1 + (normalized_pos pixel_pos img_shape).1 ^ 2 := by
  simp only [ray_start]
  linear_combination
    (1 + (normalized_pos pixel_pos img_shape).1 ^ 2) * Real.sin_sq_add_cos_sq angle

theorem zipWith_mul_sum_zero : ∀ (cs ds : List ℝ), (∀ c ∈ cs, c = 0) →
    (List.zipWith (· * ·) cs ds).sum = 0
  | [], _, _ => by simp
  | _ :: _, [], _ => by simp
  | c :: cs, d :: ds, h => by
      have hc : c = 0 := h c (by simp)
      have ih := zipWith_mul_sum_zero cs ds (fun x hx => h x (by simp [hx]))
      simp [hc, ih]

theorem zipWith_mul_sum_le (cs cs2 : List ℝ)
    (h : List.Forall₂ (fun a b => 0 ≤ a ∧ a ≤ b) cs cs2) :
    ∀ ds : List ℝ, (∀ d ∈ ds, 0 ≤ d) →
      (List.zipWith (· * ·) cs ds).sum ≤ (List.zipWith (· * ·) cs2 ds).sum := by
  induction h with
  | nil => intro ds _; simp
  | @cons a b cs cs2 hab htail ih =>
      intro ds hd
      cases ds with
      | nil => simp
      | cons d ds =>
          simp only [List.zipWith_cons_cons, List.sum_cons]
          have h1 : a * d ≤ b * d :=
            mul_le_mul_of_nonneg_right hab.2 (hd d (by simp))
          have h2 := ih ds (fun x hx => hd x (by simp [hx]))
          linarith

/-- C9: with no (s, k) scaling supplied, the transmittance of all-zero
attenuation coefficients is exactly 1 over any distances; and for positive
distances and a positive slice size, raising the (nonnegative) attenuation
coefficients pointwise never increases the transmittance. -/
theorem C9_beer_lambert (coeffs coeffs2 dists : List ℝ) (slice : ℝ) :
    ((∀ c ∈ coeffs, c = 0) →
      beer_lambert_law coeffs dists none none slice = 1) ∧
    (0 < slice → (∀ d ∈ dists, 0 < d) →
      List.Forall₂ (fun a b => 0 ≤ a ∧ a ≤ b) coeffs coeffs2 →
      beer_lambert_law coeffs2 dists none none slice ≤
        beer_lambert_law coeffs dists none none slice) := by
  constructor
  · intro hz
    simp only [beer_lambert_law]
    rw [zipWith_mul_sum_zero _ _ hz]
    simp [Real.exp_zero]
  · intro hs hd hf
    simp only [beer_lambert_law]
    apply Real.exp_le_exp.mpr
    apply neg_le_neg
    apply zipWith_mul_sum_le _ _ hf
    intro x hx
    rcases List.mem_map.mp hx with ⟨d, hdm, rfl⟩
    have := hd d hdm
    positivity

/-- Witness for C9 at one sample with coefficient 0 raised to 1, distance 1
and slice size 2. -/
theorem C9_beer_lambert_witness :
    beer_lambert_law [0] [1] none none 2 = 1 ∧
    beer_lambert_law [1] [1] none none 2 ≤ beer_lambert_law [0] [1] none none 2 := by
  have h := C9_beer_lambert [0] [1] [1] 2
  exact ⟨h.1 (by simp), h.2 (by norm_num) (by norm_num)
    (List.Forall₂.cons (by norm_num) List.Forall₂.nil)⟩

theorem splitChunks_flatten {α : Type} (cs : ℕ) (xs : List α) :
    (splitChunks cs xs).flatten = xs := by
  have H : ∀ n (xs : List α), xs.length = n → (splitChunks cs xs).flatten = xs := by
    intro n
    induction n using Nat.strong_induction_on with
    | _ n ih =>
      intro xs hlen
      cases xs with
      | nil => simp [splitChunks]
      | cons x xs =>
          rw [splitChunks, List.flatten_cons]
          rw [ih (xs.drop (cs - 1)).length (by rw [← hlen]; simp; omega) _ rfl]
          rw [List.cons_append, List.take_append_drop]
  exact H xs.length xs rfl

theorem splitChunks_map {α β : Type} (f : α → β) (cs : ℕ) (xs : List α) :
    splitChunks cs (xs.map f) = (splitChunks cs xs).map (List.map f) := by
  have H : ∀ n (xs : List α), xs.length = n →
      splitChunks cs (xs.map f) = (splitChunks cs xs).map (List.map f) := by
    intro n
    induction n using Nat.strong_induction_on with
    | _ n ih =>
      intro xs hlen
      cases xs with
      | nil => simp [splitChunks]
      | cons x xs =>
          rw [List.map_cons, splitChunks, splitChunks]
          rw [← List.map_take, ← List.map_drop]
          rw [ih (xs.drop (cs - 1)).length (by rw [← hlen]; simp; omega) _ rfl]
          simp
  exact H xs.length xs rfl

theorem splitChunks_mem_length {α : Type} (cs : ℕ) (hcs : 1 ≤ cs) (xs : List α) :
    ∀ c ∈ splitChunks cs xs, c.length ≤ cs ∧ c ≠ [] := by
  have H : ∀ n (xs : List α), xs.length = n →
      ∀ c ∈ splitChunks cs xs, c.length ≤ cs ∧ c ≠ [] := by
    intro n
    induction n using Nat.strong_induction_on with
    | _ n ih =>
      intro xs hlen c hc
      cases xs with
      | nil => simp [splitChunks] at hc
      | cons x xs =>
          rw [splitChunks] at hc
          rcases List.mem_cons.mp hc with rfl | hc2
          · constructor
            · have := List.length_take_le (cs - 1) xs
              simp only [List.length_cons]
              omega
            · simp
          · exact ih (xs.drop (cs - 1)).length (by rw [← hlen]; simp; omega) _ rfl c hc2
  exact H xs.length xs rfl

theorem splitChunks_dropLast_length {α : Type} (cs : ℕ) (hcs : 1 ≤ cs) (xs : List α) :
    ∀ c ∈ (splitChunks cs xs).dropLast, c.length = cs := by
  have H : ∀ n (xs : List α), xs.length = n →
      ∀ c ∈ (splitChunks cs xs).dropLast, c.length = cs := by
    intro n
    induction n using Nat.strong_induction_on with
    | _ n ih =>
      intro xs hlen c hc
      cases xs with
      | nil => simp [splitChunks] at hc
      | cons x xs =>
          rw [splitChunks] at hc
          cases hdrop : xs.drop (cs - 1) with
          | nil =>
              rw [hdrop] at hc
              simp [splitChunks] at hc
          | cons y ys =>
              rw [hdrop, splitChunks] at hc
              rw [List.dropLast_cons₂] at hc
              rcases List.mem_cons.mp hc with rfl | hc2
              · have hlt : cs - 1 < xs.length := by
                  by_contra hcon
                  push_neg at hcon
                  rw [List.drop_eq_nil_of_le hcon] at hdrop
                  exact List.noConfusion hdrop
                simp only [List.length_cons, List.length_take]
                omega
              · have hmem : c ∈ (splitChunks cs (xs.drop (cs - 1))).dropLast := by
                  rw [hdrop, splitChunks]
                  exact hc2
                exact ih (xs.drop (cs - 1)).length (by rw [← hlen]; simp; omega) _ rfl c hmem
  exact H xs.length xs rfl

/-- C10: for any chunk size at least 1, the chunk partition used by the
query loop concatenates back to the full flat coordinate list, so each
chunk writes exactly the buffer slice starting at its offset and every
buffer element is written exactly once; every chunk except the last has
exactly chunk_size elements and every chunk, the final short one included,
is nonempty with at most chunk_size elements; and the concatenated
per-chunk model outputs equal the model applied to all coordinates in a
single call. -/
theorem C10_chunked_inference {α β : Type} (f : α → β) (cs : ℕ) (xs : List α)
    (hcs : 1 ≤ cs) :
    (splitChunks cs xs).flatten = xs ∧
    ((splitChunks cs xs).map (List.map f)).flatten = xs.map f ∧
    (∀ c ∈ (splitChunks cs xs).dropLast, c.length = cs) ∧
    (∀ c ∈ splitChunks cs xs, c.length ≤ cs ∧ c ≠ []) := by
  refine ⟨splitChunks_flatten cs xs, ?_, splitChunks_dropLast_length cs hcs xs,
    splitChunks_mem_length cs hcs xs⟩
  rw [← splitChunks_map, splitChunks_flatten]

/-- Witness for C10 with chunk size 2 over three points, where the final
short chunk holds one element. -/
theorem C10_chunked_inference_witness :
    (splitChunks 2 [0, 1, 2]).flatten = [0, 1, 2] ∧
    ((splitChunks 2 [0, 1, 2]).map (List.map Nat.succ)).flatten = [1, 2, 3] ∧
    (∀ c ∈ (splitChunks 2 [0, 1, 2]).dropLast, c.length = 2) ∧
    (∀ c ∈ splitChunks 2 [0, 1, 2], c.length ≤ 2 ∧ c ≠ []) :=
  C10_chunked_inference Nat.succ 2 [0, 1, 2] (by norm_num)

end CTNeRF
